import Mathlib

/-!
Shallow embedding of `fraction_visualizer_streamlit.py` (the core computation:
`prime_factors`, `lcm`, `compute_lcd`, `parse_expression`, and the arithmetic
pipeline of `main`'s Solve handler).  Python integers are modelled as `Int`
(`Nat` for the factorization loops, whose inputs are positive denominators);
Python `//` (floor division) is `Int.fdiv`; `math.gcd` is `Int.gcd` (the gcd of
the absolute values, a natural number); strings are processed as `List Char`.
Python's `int()` is modelled for the sign-free ASCII tokens that the scanner
produces (underscore digit grouping and non-ASCII digits are not modelled).
The `while` loops are embedded with an explicit structural fuel argument; the
wrappers bake in a fuel that provably suffices (fuel-stability lemmas below),
so every definition evaluates by kernel reduction.
-/

deriving instance DecidableEq for Except

namespace FV

/-- The error taxonomy of `parse_expression` (each Python `ValueError` message,
keyed by which `raise` produced it, carrying the offending token). -/
inductive ParseError where
  /-- "Invalid fraction '{tok}': Denominator cannot be zero" -/
  | zeroDenominator (tok : String)
  /-- "Invalid fraction '{tok}': ..." for any other failure of
  `num, denom = map(int, fraction.split('/'))` -/
  | invalidFraction (tok : String)
  /-- "Invalid number '{tok}'" -/
  | invalidNumber (tok : String)
  /-- "Need exactly 3 fractions with 2 operators (+ or -) between them" -/
  | wrongArity
deriving DecidableEq

/-- An element of the Python `parts` list: either a `(num, denom)` tuple or a
one-character operator string. -/
inductive Part where
  | term (n d : Int)
  | op (c : Char)
deriving DecidableEq

/-- `str.split(sep)` for a one-character separator, over the character list. -/
def splitOnChar (sep : Char) : List Char → List (List Char)
  | [] => [[]]
  | c :: rest =>
    let r := splitOnChar sep rest
    if c = sep then [] :: r
    else
      match r with
      | h :: t => (c :: h) :: t
      | [] => [[c]]

/-- Helper for `decToNat?`: accumulate decimal digits, failing on a non-digit. -/
def decToNatAux : List Char → Nat → Option Nat
  | [], acc => some acc
  | c :: rest, acc =>
    if c.isDigit then decToNatAux rest (acc * 10 + (c.toNat - '0'.toNat)) else none

/-- Python `int(s)` on the sign-free tokens produced by the scanner: succeeds
exactly on a nonempty string of decimal digits. -/
def decToNat? (l : List Char) : Option Nat :=
  match l with
  | [] => none
  | _ => decToNatAux l 0

/-- Lines 52-67 of the source: validate one scanned token and turn it into a
`(num, denom)` pair.  A token containing `/` is split on `/` and both pieces
parsed as integers (any failure of that, including a wrong number of pieces,
is the generic "Invalid fraction" error); a zero denominator is its own
message; a token without `/` gets denominator 1. -/
def parseToken (tok : List Char) : Except ParseError (Int × Int) :=
  if tok.contains '/' then
    match splitOnChar '/' tok with
    | [a, b] =>
      match decToNat? a, decToNat? b with
      | some n, some d =>
        if d = 0 then .error (.zeroDenominator (String.mk tok))
        else .ok ((n : Int), (d : Int))
      | _, _ => .error (.invalidFraction (String.mk tok))
    | _ => .error (.invalidFraction (String.mk tok))
  else
    match decToNat? tok with
    | some n => .ok ((n : Int), 1)
    | none => .error (.invalidNumber (String.mk tok))

/-- `parts and isinstance(parts[-1], tuple)` -/
def lastIsTerm (parts : List Part) : Bool :=
  match parts.getLast? with
  | some (.term _ _) => true
  | _ => false

/-- A character that is not an operator (the scan of the inner `while` loop
collects exactly these). -/
def notOp (c : Char) : Bool := !(c = '+' || c = '-')

/-- The scanning `while` loop of `parse_expression` (lines 41-68), with an
explicit fuel argument (each iteration of the source loop consumes at least
one character, so fuel = length of the remaining input suffices; see
`scanFuel_stable`).  An operator character is appended to `parts` only when
the previous part is a term; otherwise the maximal run of non-operator
characters is taken as a token, validated, and appended as a term. -/
def scanFuel : Nat → List Part → List Char → Except ParseError (List Part)
  | 0, parts, _ => .ok parts
  | _ + 1, parts, [] => .ok parts
  | f + 1, parts, c :: rest =>
    if c = '+' ∨ c = '-' then
      scanFuel f (if lastIsTerm parts then parts ++ [.op c] else parts) rest
    else
      let tok := (c :: rest).takeWhile notOp
      let restAfter := (c :: rest).dropWhile notOp
      match parseToken tok with
      | .error e => .error e
      | .ok nd => scanFuel f (parts ++ [.term nd.1 nd.2]) restAfter

/-- The scan applied to an input string after `expr.replace(" ", "")`. -/
def scanOf (s : String) : Except ParseError (List Part) :=
  let cs := s.toList.filter (fun c => c ≠ ' ')
  scanFuel cs.length [] cs

/-- `[p for p in parts if isinstance(p, tuple)]`, projected to the pairs. -/
def fractionsOf (parts : List Part) : List (Int × Int) :=
  parts.filterMap fun p => match p with | .term n d => some (n, d) | _ => none

/-- `[p for p in parts if isinstance(p, str)]`, projected to the characters. -/
def operatorsOf (parts : List Part) : List Char :=
  parts.filterMap fun p => match p with | .op c => some c | _ => none

/-- `parse_expression` (lines 35-77): strip spaces, scan, then validate that
exactly 3 terms and 2 operators were produced. -/
def parse_expression (s : String) : Except ParseError (List Part) :=
  match scanOf s with
  | .error e => .error e
  | .ok parts =>
    if (fractionsOf parts).length = 3 ∧ (operatorsOf parts).length = 2 then .ok parts
    else .error .wrongArity

/-- `math.gcd` on Python ints: the (nonnegative) gcd of the absolute values. -/
def math_gcd (a b : Int) : Int := (Int.gcd a b : Int)

/-- `lcm(a, b) = a * b // gcd(a, b)` (line 29); `//` is floor division. -/
def lcm (a b : Int) : Int := Int.fdiv (a * b) (math_gcd a b)

/-- `compute_lcd` (line 33): `reduce(lcm, denominators)`.  On the empty list
Python's `reduce` raises `TypeError`; that case is unreachable here (the parser
guarantees 3 terms) and is given the junk value 0 to keep the embedding total. -/
def compute_lcd (denominators : List Int) : Int :=
  match denominators with
  | [] => 0
  | h :: t => t.foldl lcm h

/-- One step of the accumulation loop (lines 189-192). -/
def applyOp (op : Char) (a b : Int) : Int := if op = '+' then a + b else a - b

/-- The accumulation loop over the zipped (operator, next converted numerator)
pairs. -/
def accLoop (r : Int) : List (Char × Int) → Int
  | [] => r
  | (op, c) :: rest => accLoop (applyOp op r c) rest

/-- Lines 185-192: start from `converted_nums[0]` and fold the operators over
the remaining converted numerators (index `i+1` for operator `i`).  The
`headD 0` junk default is unreachable: the parser guarantees 3 terms. -/
def accumulate (convertedNums : List Int) (operators : List Char) : Int :=
  accLoop (convertedNums.headD 0) (operators.zip convertedNums.tail)

/-- The computation trace of one run of `main`'s Solve handler (the values the
source computes and displays in lines 122-202). -/
structure Trace where
  parts : List Part
  fractions : List (Int × Int)
  operators : List Char
  denominators : List Int
  lcd : Int
  convertedNums : List Int
  result : Int
  commonDivisor : Int
  simplified : Option (Int × Int)
deriving DecidableEq

/-- Build the trace from a successfully parsed `parts` list, mirroring lines
123-127 and 185-202 of `main`.  `simplified = none` models the
"Cannot be simplified further" branch. -/
def mkTrace (parts : List Part) : Trace :=
  let fractions := fractionsOf parts
  let operators := operatorsOf parts
  let denominators := fractions.map (fun f => f.2)
  let lcd := compute_lcd denominators
  let convertedNums := fractions.map (fun f => f.1 * Int.fdiv lcd f.2)
  let result := accumulate convertedNums operators
  let commonDivisor : Int := (Int.gcd result lcd : Int)
  let simplified :=
    if 1 < commonDivisor then some (Int.fdiv result commonDivisor, Int.fdiv lcd commonDivisor)
    else none
  ⟨parts, fractions, operators, denominators, lcd, convertedNums, result,
    commonDivisor, simplified⟩

/-- The Solve handler (lines 120-202): parse, then compute the trace; a parse
error aborts the whole pipeline. -/
def solve (s : String) : Except ParseError Trace :=
  (parse_expression s).map mkTrace

/-! ### Prime factorization (`prime_factors`, lines 11-25) -/

/-- The inner `while n % i == 0` loop: divide out the factor `i`, returning
(exponent, reduced value).  Fueled: the reduced value strictly decreases at
each division, so fuel = n suffices (see `divideOutF_stable`).  (For `n = 0`
the Python loop would not terminate; the parser only supplies positive
numbers.) -/
def divideOutF : Nat → Nat → Nat → Nat × Nat
  | 0, _, n => (0, n)
  | f + 1, p, n =>
    if 2 ≤ p ∧ 0 < n ∧ n % p = 0 then
      let r := divideOutF f p (n / p)
      (r.1 + 1, r.2)
    else (0, n)

/-- Divide out the factor `p` from `n` with the fuel baked in. -/
def divideOut (p n : Nat) : Nat × Nat := divideOutF n p n

/-- The `while i * i <= n` trial-division loop shared (textually) by
`prime_factors` (starting at `i = 3`) and the inline copy in `main`
(starting at `i = 2`): divide out `i`, record `(i, exponent)` when the
exponent is positive, and step `i` by 2.  Returns the accumulated factor
list and the leftover value.  Fueled; fuel = n + 2 suffices from any start
(see `factorLoopF_stable`). -/
def factorLoopF : Nat → Nat → Nat → List (Nat × Nat) → List (Nat × Nat) × Nat
  | 0, _, n, acc => (acc, n)
  | f + 1, i, n, acc =>
    if i * i ≤ n then
      let r := divideOut i n
      factorLoopF f (i + 2) r.2 (if 0 < r.1 then acc ++ [(i, r.1)] else acc)
    else (acc, n)

/-- The trial-division loop with the fuel baked in. -/
def factorLoop (i n : Nat) (acc : List (Nat × Nat)) : List (Nat × Nat) × Nat :=
  factorLoopF (n + 2) i n acc

/-- The `factors` dictionary computed by `prime_factors` (lines 13-24), as an
association list in insertion order: the factor 2 first, then ascending odd
primes, then any leftover (> 1) with exponent 1. -/
def prime_factors_pairs (n : Nat) : List (Nat × Nat) :=
  let r2 := divideOut 2 n
  let acc0 := if 0 < r2.1 then [(2, r2.1)] else []
  let rl := factorLoop 3 r2.2 acc0
  if 1 < rl.2 then rl.1 ++ [(rl.2, 1)] else rl.1

/-- Line 25: render one `(prime, exponent)` entry as the Python f-string does. -/
def renderFactor (pe : Nat × Nat) : String :=
  Nat.repr pe.1 ++ (if 1 < pe.2 then "^" ++ Nat.repr pe.2 else "")

/-- `prime_factors` (lines 11-25): the rendered factor strings. -/
def prime_factors (n : Nat) : List String :=
  (prime_factors_pairs n).map renderFactor

/-- The product of `base ^ exponent` over a factor list. -/
def prodPairs (l : List (Nat × Nat)) : Nat :=
  (l.map (fun pe => pe.1 ^ pe.2)).prod

/-! ### The inline factorization block of `main` (lines 155-176) -/

/-- The inline per-denominator factorization loop of `main` (lines 157-166):
NOTE the source starts at `i = 2` and steps by 2 (it lacks the
`while n % 2 == 0` prelude and the `i = 3` start of `prime_factors`). -/
def inline_factors (d : Nat) : List (Nat × Nat) :=
  let r := factorLoop 2 d []
  if 1 < r.2 then r.1 ++ [(r.2, 1)] else r.1

/-- `all_factors[p]` lookup. -/
def lookupVal (p : Nat) : List (Nat × Nat) → Option Nat
  | [] => none
  | (q, v) :: t => if q = p then some v else lookupVal p t

/-- In-place update of the value at key `p` (dict assignment keeps position). -/
def updateVal (p c : Nat) : List (Nat × Nat) → List (Nat × Nat)
  | [] => []
  | (q, v) :: t => if q = p then (q, c) :: t else (q, v) :: updateVal p c t

/-- Lines 167-172: merge one `(p, cnt)` entry into `all_factors`, keeping the
larger exponent. -/
def mergeStep (all : List (Nat × Nat)) (pe : Nat × Nat) : List (Nat × Nat) :=
  match lookupVal pe.1 all with
  | some v => if v < pe.2 then updateVal pe.1 pe.2 all else all
  | none => all ++ [pe]

/-- Lines 155-172: the accumulated `all_factors` dictionary over all
denominators. -/
def all_factors (denominators : List Nat) : List (Nat × Nat) :=
  denominators.foldl (fun all d => (inline_factors d).foldl mergeStep all) []

/-- Ordered insertion by key, for `sorted(all_factors.items())`. -/
def insertPair (pe : Nat × Nat) : List (Nat × Nat) → List (Nat × Nat)
  | [] => [pe]
  | q :: t => if pe.1 ≤ q.1 then pe :: q :: t else q :: insertPair pe t

/-- `sorted(all_factors.items())` (keys are distinct, so tuple order is key
order). -/
def sortPairs (l : List (Nat × Nat)) : List (Nat × Nat) :=
  l.foldr insertPair []

/-- The product displayed by line 176 as `lcd_factors` joined with `×`:
the product of the highest collected power of each prime. -/
def lcd_factors_prod (denominators : List Nat) : Nat :=
  prodPairs (sortPairs (all_factors denominators))

/-! ## Lemmas about the parser -/

/-- The invariant of every element the scanner appends to `parts`: a term has
a nonnegative numerator and a positive denominator (tokens never contain a
sign, and a zero denominator is rejected); an operator is `+` or `-`. -/
def PartInv : Part → Prop
  | .term n d => 0 ≤ n ∧ 0 < d
  | .op c => c = '+' ∨ c = '-'

theorem parseToken_ok_inv {tok : List Char} {n d : Int}
    (h : parseToken tok = .ok (n, d)) : 0 ≤ n ∧ 0 < d := by
  unfold parseToken at h
  split at h
  · split at h
    · split at h
      · split at h
        · exact absurd h (by simp)
        · rename_i hdz
          simp only [Except.ok.injEq, Prod.mk.injEq] at h
          omega
      · exact absurd h (by simp)
    · exact absurd h (by simp)
  · split at h
    · simp only [Except.ok.injEq, Prod.mk.injEq] at h
      omega
    · exact absurd h (by simp)

theorem scanFuel_ok_inv :
    ∀ (f : Nat) (parts : List Part) (cs : List Char) (res : List Part),
      scanFuel f parts cs = .ok res → (∀ p ∈ parts, PartInv p) →
      ∀ p ∈ res, PartInv p := by
  intro f
  induction f with
  | zero =>
    intro parts cs res h hinv
    simp only [scanFuel] at h
    cases h
    exact hinv
  | succ f ih =>
    intro parts cs res h hinv
    cases cs with
    | nil =>
      simp only [scanFuel] at h
      cases h
      exact hinv
    | cons c rest =>
      simp only [scanFuel] at h
      split at h
      · rename_i hop
        refine ih _ _ _ h ?_
        split
        · intro p hp
          rcases List.mem_append.mp hp with hp | hp
          · exact hinv p hp
          · simp at hp
            subst hp
            exact hop
        · exact hinv
      · rcases hp : parseToken ((c :: rest).takeWhile notOp) with e | ⟨tn, td⟩ <;>
          rw [hp] at h
        · have h2 : (Except.error e : Except ParseError (List Part)) = .ok res := h
          cases h2
        · have h2 : scanFuel f (parts ++ [Part.term tn td])
              ((c :: rest).dropWhile notOp) = .ok res := h
          refine ih _ _ _ h2 ?_
          intro p hmem
          rcases List.mem_append.mp hmem with hm | hm
          · exact hinv p hm
          · simp at hm
            subst hm
            exact parseToken_ok_inv hp

theorem parse_ok_spec {s : String} {parts : List Part}
    (h : parse_expression s = .ok parts) :
    scanOf s = .ok parts ∧ (fractionsOf parts).length = 3 ∧
      (operatorsOf parts).length = 2 := by
  unfold parse_expression at h
  rcases hs : scanOf s with e | ps
  · rw [hs] at h
    have h2 : (Except.error e : Except ParseError (List Part)) = .ok parts := h
    cases h2
  · rw [hs] at h
    have h2 : (if (fractionsOf ps).length = 3 ∧ (operatorsOf ps).length = 2
        then (Except.ok ps : Except ParseError (List Part))
        else .error .wrongArity) = .ok parts := h
    split at h2
    · rename_i hc
      have h3 : ps = parts := by simpa using h2
      subst h3
      exact ⟨rfl, hc⟩
    · cases h2

theorem parse_ok_inv {s : String} {parts : List Part}
    (h : parse_expression s = .ok parts) : ∀ p ∈ parts, PartInv p := by
  have hs := (parse_ok_spec h).1
  unfold scanOf at hs
  exact scanFuel_ok_inv _ _ _ _ hs (by intro p hp; simp at hp)

theorem solve_ok {s : String} {t : Trace} (h : solve s = .ok t) :
    ∃ parts, parse_expression s = .ok parts ∧ t = mkTrace parts := by
  unfold solve at h
  rcases hp : parse_expression s with e | parts <;> rw [hp] at h <;>
    simp [Except.map] at h
  exact ⟨parts, rfl, h.symm⟩

theorem fractionsOf_inv {parts : List Part} (hinv : ∀ p ∈ parts, PartInv p) :
    ∀ f ∈ fractionsOf parts, 0 ≤ f.1 ∧ 0 < f.2 := by
  intro f hf
  obtain ⟨p, hp, hmatch⟩ := List.mem_filterMap.mp hf
  cases p with
  | term n d =>
    have hpd : 0 ≤ n ∧ 0 < d := hinv _ hp
    have hf2 : some (n, d) = some f := hmatch
    have hf3 : (n, d) = f := by injection hf2
    rw [← hf3]
    exact hpd
  | op c => exact Option.noConfusion hmatch

/-- Projections of `mkTrace` (the let-bindings of lines 123-202). -/
theorem mkTrace_fractions (parts : List Part) :
    (mkTrace parts).fractions = fractionsOf parts := rfl

theorem mkTrace_operators (parts : List Part) :
    (mkTrace parts).operators = operatorsOf parts := rfl

theorem mkTrace_denominators (parts : List Part) :
    (mkTrace parts).denominators = (fractionsOf parts).map (fun f => f.2) := rfl

theorem mkTrace_lcd (parts : List Part) :
    (mkTrace parts).lcd = compute_lcd ((mkTrace parts).denominators) := rfl

theorem mkTrace_convertedNums (parts : List Part) :
    (mkTrace parts).convertedNums =
      (mkTrace parts).fractions.map
        (fun f => f.1 * Int.fdiv (mkTrace parts).lcd f.2) := rfl

theorem mkTrace_result (parts : List Part) :
    (mkTrace parts).result =
      accumulate (mkTrace parts).convertedNums (mkTrace parts).operators := rfl

theorem mkTrace_commonDivisor (parts : List Part) :
    (mkTrace parts).commonDivisor =
      (Int.gcd (mkTrace parts).result (mkTrace parts).lcd : Int) := rfl

theorem mkTrace_simplified (parts : List Part) :
    (mkTrace parts).simplified =
      (if 1 < (mkTrace parts).commonDivisor then
        some (Int.fdiv (mkTrace parts).result (mkTrace parts).commonDivisor,
              Int.fdiv (mkTrace parts).lcd (mkTrace parts).commonDivisor)
      else none) := rfl

/-! ## Lemmas about `lcm` / `compute_lcd` -/

theorem lcm_coe (a b : Nat) : lcm (a : Int) (b : Int) = (Nat.lcm a b : Int) := by
  unfold lcm math_gcd
  rw [Int.gcd_natCast_natCast]
  have hmul : ((a : Int) * (b : Int)) = ((a * b : Nat) : Int) := by push_cast; ring
  rw [hmul, ← Int.ofNat_fdiv]
  rfl

theorem foldl_lcm_coe (t : List Int) :
    ∀ (a : Nat), (∀ x ∈ t, 0 ≤ x) →
      t.foldl lcm (a : Int) = (((t.map Int.toNat).foldl Nat.lcm a : Nat) : Int) := by
  induction t with
  | nil => intro a _; rfl
  | cons x t ih =>
    intro a hx
    have hx0 : 0 ≤ x := hx x (by simp)
    have hxc : x = ((x.toNat : Nat) : Int) := (Int.toNat_of_nonneg hx0).symm
    simp only [List.foldl_cons, List.map_cons]
    rw [hxc, lcm_coe]
    exact ih _ (fun y hy => hx y (by simp [hy]))

theorem foldl_nat_lcm_pos (t : List Nat) :
    ∀ (a : Nat), 0 < a → (∀ x ∈ t, 0 < x) → 0 < t.foldl Nat.lcm a := by
  induction t with
  | nil => intro a ha _; exact ha
  | cons x t ih =>
    intro a ha hx
    simp only [List.foldl_cons]
    exact ih _ (Nat.lcm_pos ha (hx x (by simp))) (fun y hy => hx y (by simp [hy]))

theorem dvd_foldl_nat_lcm (t : List Nat) :
    ∀ (a : Nat), a ∣ t.foldl Nat.lcm a ∧ ∀ x ∈ t, x ∣ t.foldl Nat.lcm a := by
  induction t with
  | nil => intro a; exact ⟨dvd_refl a, by simp⟩
  | cons x t ih =>
    intro a
    simp only [List.foldl_cons]
    obtain ⟨h1, h2⟩ := ih (Nat.lcm a x)
    refine ⟨dvd_trans (Nat.dvd_lcm_left a x) h1, ?_⟩
    intro y hy
    rcases List.mem_cons.mp hy with hy | hy
    · subst hy
      exact dvd_trans (Nat.dvd_lcm_right a y) h1
    · exact h2 y hy

theorem foldl_nat_lcm_perm {l1 l2 : List Nat} (p : l1.Perm l2) :
    ∀ a, l1.foldl Nat.lcm a = l2.foldl Nat.lcm a := by
  induction p with
  | nil => intro a; rfl
  | cons x _ ih => intro a; simp only [List.foldl_cons]; exact ih _
  | swap x y l =>
    intro a
    simp only [List.foldl_cons]
    have : Nat.lcm (Nat.lcm a y) x = Nat.lcm (Nat.lcm a x) y := by
      rw [Nat.lcm_assoc, Nat.lcm_assoc, Nat.lcm_comm y x]
    rw [this]
  | trans _ _ ih1 ih2 => intro a; rw [ih1, ih2]

/-- On a nonempty list of positive integers, `compute_lcd` is the (cast) fold
of `Nat.lcm` from the unit 1. -/
theorem compute_lcd_pos_eq {l : List Int} (hl : l ≠ [])
    (hp : ∀ x ∈ l, 0 < x) :
    compute_lcd l = (((l.map Int.toNat).foldl Nat.lcm 1 : Nat) : Int) := by
  cases l with
  | nil => exact absurd rfl hl
  | cons h t =>
    have hh : 0 < h := hp h (by simp)
    have hhc : h = ((h.toNat : Nat) : Int) := (Int.toNat_of_nonneg (le_of_lt hh)).symm
    show t.foldl lcm h = _
    rw [hhc, foldl_lcm_coe t _ (fun y hy => le_of_lt (hp y (by simp [hy])))]
    simp only [List.map_cons, List.foldl_cons, Nat.lcm_one_left, Int.toNat_natCast]

/-! ## Lemmas about operator-character skipping (lines 41-45) -/

theorem scanFuel_cons_op (c : Char) (hc : c = '+' ∨ c = '-') (l : List Char) :
    scanFuel (c :: l).length [] (c :: l) = scanFuel l.length [] l := by
  show scanFuel (l.length + 1) [] (c :: l) = _
  simp only [scanFuel]
  rw [if_pos hc]
  rfl

theorem lastIsTerm_append_op (parts : List Part) (c : Char) :
    lastIsTerm (parts ++ [Part.op c]) = false := by
  unfold lastIsTerm
  rw [List.getLast?_concat]

/-- A sign character at the very start of the input (empty `parts`) is
consumed without recording anything, so parsing a sign-prefixed string equals
parsing the string itself. -/
theorem parse_prefixed_sign (c : Char) (hc : c = '+' ∨ c = '-') (s : String) :
    parse_expression (String.mk [c] ++ s) = parse_expression s := by
  obtain ⟨l⟩ := s
  have hcs : c ≠ ' ' := by rcases hc with hc | hc <;> subst hc <;> decide
  have h1 : (String.mk [c] ++ String.mk l).toList.filter (fun x => x ≠ ' ') =
      c :: l.filter (fun x => x ≠ ' ') := by
    show (c :: l).filter _ = _
    simp [hcs]
  unfold parse_expression scanOf
  rw [h1, scanFuel_cons_op c hc]
  rfl

theorem scanFuel_op_run (f : Nat) (parts : List Part) (c1 c2 : Char)
    (rest : List Char) (h1 : c1 = '+' ∨ c1 = '-') (h2 : c2 = '+' ∨ c2 = '-')
    (ht : lastIsTerm parts = true) :
    scanFuel (f + 2) parts (c1 :: c2 :: rest) =
      scanFuel f (parts ++ [Part.op c1]) rest := by
  show scanFuel (f + 1 + 1) parts (c1 :: c2 :: rest) = _
  simp only [scanFuel]
  rw [if_pos h1, if_pos ht, if_pos h2, if_neg]
  rw [lastIsTerm_append_op]
  simp

/-! ## Lemmas about the factorization loops -/

theorem divideOutF_snd_le (f p n : Nat) : (divideOutF f p n).2 ≤ n := by
  induction f generalizing n with
  | zero => exact le_refl n
  | succ f ih =>
    simp only [divideOutF]
    split
    · rename_i hc
      exact le_trans (ih (n / p)) (Nat.div_le_self n p)
    · exact le_refl n

theorem divideOutF_spec (f p n : Nat) (hf : n ≤ f) (hp : 2 ≤ p) (hn : 1 ≤ n) :
    p ^ (divideOutF f p n).1 * (divideOutF f p n).2 = n ∧
      ¬ p ∣ (divideOutF f p n).2 ∧ 1 ≤ (divideOutF f p n).2 := by
  induction f generalizing n with
  | zero => omega
  | succ f ih =>
    simp only [divideOutF]
    by_cases hc : 2 ≤ p ∧ 0 < n ∧ n % p = 0
    · rw [if_pos hc]
      obtain ⟨-, hn0, hmod⟩ := hc
      have hdvd : p ∣ n := Nat.dvd_of_mod_eq_zero hmod
      have hple : p ≤ n := Nat.le_of_dvd hn0 hdvd
      have hlt : n / p < n := Nat.div_lt_self hn0 (by omega)
      have h1 : 1 ≤ n / p := (Nat.one_le_div_iff (by omega)).mpr hple
      obtain ⟨he, hnd, hpos⟩ := ih (n / p) (by omega) h1
      refine ⟨?_, hnd, hpos⟩
      calc p ^ ((divideOutF f p (n / p)).1 + 1) * (divideOutF f p (n / p)).2
          = p * (p ^ (divideOutF f p (n / p)).1 * (divideOutF f p (n / p)).2) := by
            ring
        _ = p * (n / p) := by rw [he]
        _ = n := Nat.mul_div_cancel' hdvd
    · rw [if_neg hc]
      have hmod : ¬ p ∣ n := by
        intro hd
        exact hc ⟨hp, by omega, Nat.eq_zero_of_dvd_of_lt hd |> fun _ => by
          omega⟩
      exact ⟨by simp, hmod, hn⟩

theorem divideOutF_zero_val (g p : Nat) : divideOutF g p 0 = (0, 0) := by
  cases g with
  | zero => rfl
  | succ g => simp [divideOutF]

theorem divideOutF_stable (f g p n : Nat) (hf : n ≤ f) (hg : n ≤ g) :
    divideOutF f p n = divideOutF g p n := by
  induction f generalizing g n with
  | zero =>
    have : n = 0 := by omega
    subst this
    rw [divideOutF_zero_val, divideOutF_zero_val]
  | succ f ih =>
    cases g with
    | zero =>
      have : n = 0 := by omega
      subst this
      rw [divideOutF_zero_val, divideOutF_zero_val]
    | succ g =>
      simp only [divideOutF]
      by_cases hc : 2 ≤ p ∧ 0 < n ∧ n % p = 0
      · rw [if_pos hc, if_pos hc]
        obtain ⟨hp2, hn0, hmod⟩ := hc
        have hlt : n / p < n := Nat.div_lt_self hn0 (by omega)
        rw [ih g (n / p) (by omega) (by omega)]
      · rw [if_neg hc, if_neg hc]

theorem factorLoopF_exit (g i n : Nat) (acc : List (Nat × Nat))
    (h : n < i * i) : factorLoopF g i n acc = (acc, n) := by
  cases g with
  | zero => rfl
  | succ g =>
    simp only [factorLoopF]
    rw [if_neg (by omega)]

theorem prodPairs_append (l : List (Nat × Nat)) (pe : Nat × Nat) :
    prodPairs (l ++ [pe]) = prodPairs l * pe.1 ^ pe.2 := by
  simp [prodPairs]

/-- A number greater than 1 with no divisor `d`, `2 ≤ d < i`, and below `i²`
is prime. -/
theorem no_small_divisor_prime {i n : Nat} (hn : 1 < n) (hsq : n < i * i)
    (hinv : ∀ d, 2 ≤ d → d < i → ¬ d ∣ n) : Nat.Prime n := by
  rw [Nat.prime_def_lt]
  refine ⟨hn, fun m hmn hmd => ?_⟩
  by_contra hm1
  have hm0 : m ≠ 0 := by
    rintro rfl
    have := Nat.eq_zero_of_zero_dvd hmd
    omega
  have hm2 : 2 ≤ m := by omega
  rcases Nat.lt_or_ge m i with hmi | hmi
  · exact hinv m hm2 hmi hmd
  · obtain ⟨k, hk⟩ := hmd
    have hk2 : 2 ≤ k := by
      rcases Nat.lt_or_ge k 2 with h | h
      · rcases (by omega : k = 0 ∨ k = 1) with rfl | rfl
        · omega
        · omega
      · exact h
    have hkd : k ∣ n := ⟨m, by rw [hk]; ring⟩
    rcases Nat.lt_or_ge k i with hki | hki
    · exact hinv k hk2 hki hkd
    · have hmul : i * i ≤ m * k := Nat.mul_le_mul hmi hki
      omega

/-- A divisor `i ≥ 2` of `n` is prime when `n` has no divisor in `[2, i)`. -/
theorem no_divisor_below_prime {i n : Nat} (h2 : 2 ≤ i) (hidvd : i ∣ n)
    (hinv : ∀ d, 2 ≤ d → d < i → ¬ d ∣ n) : Nat.Prime i := by
  rw [Nat.prime_def_lt]
  refine ⟨h2, fun m hmi hmd => ?_⟩
  by_contra hm1
  have hm0 : m ≠ 0 := by
    rintro rfl
    have := Nat.eq_zero_of_zero_dvd hmd
    omega
  exact hinv m (by omega) hmi (hmd.trans hidvd)

theorem factorLoopF_spec (f : Nat) :
    ∀ (i n : Nat) (acc : List (Nat × Nat)),
      n + 2 ≤ f + i → 3 ≤ i → i % 2 = 1 → 1 ≤ n → ¬ 2 ∣ n →
      (∀ d, 2 ≤ d → d < i → ¬ d ∣ n) →
      (∀ pe ∈ (factorLoopF f i n acc).1,
        pe ∈ acc ∨ (Nat.Prime pe.1 ∧ 1 ≤ pe.2)) ∧
      prodPairs (factorLoopF f i n acc).1 * (factorLoopF f i n acc).2 =
        prodPairs acc * n ∧
      1 ≤ (factorLoopF f i n acc).2 ∧
      (1 < (factorLoopF f i n acc).2 → Nat.Prime (factorLoopF f i n acc).2) := by
  induction f with
  | zero =>
    intro i n acc hf h3 hodd hn h2 hinv
    have hsq : n < i * i :=
      lt_of_lt_of_le (by omega) (Nat.le_mul_of_pos_left i (by omega))
    refine ⟨fun pe hpe => Or.inl hpe, rfl, hn, fun h1n =>
      no_small_divisor_prime h1n hsq hinv⟩
  | succ f ih =>
    intro i n acc hf h3 hodd hn h2 hinv
    by_cases hloop : i * i ≤ n
    · have hi2 : 2 ≤ i := by omega
      obtain ⟨he, hnd, hp1⟩ := divideOutF_spec n i n le_rfl hi2 hn
      have hstep : factorLoopF (f + 1) i n acc =
          factorLoopF f (i + 2) (divideOut i n).2
            (if 0 < (divideOut i n).1 then acc ++ [(i, (divideOut i n).1)]
             else acc) := by
        simp only [factorLoopF]
        rw [if_pos hloop]
      have hle : (divideOut i n).2 ≤ n := divideOutF_snd_le n i n
      rcases hdo : divideOut i n with ⟨e, m⟩
      have hdo' : divideOutF n i n = (e, m) := hdo
      rw [hdo'] at he hnd hp1
      simp only [] at he hnd hp1
      rw [hdo] at hstep hle
      simp only [] at hstep hle
      rw [hstep]
      have hdvd2 : m ∣ n := ⟨i ^ e, by rw [← he]; ring⟩
      have hnot2 : ¬ 2 ∣ m := fun hdd => h2 (hdd.trans hdvd2)
      have hinv' : ∀ d, 2 ≤ d → d < i + 2 → ¬ d ∣ m := by
        intro d hd2 hdlt hdd
        rcases Nat.lt_or_ge d i with hdi | hdi
        · exact hinv d hd2 hdi (hdd.trans hdvd2)
        · rcases (by omega : d = i ∨ d = i + 1) with rfl | rfl
          · exact hnd hdd
          · have h2d : (2 : Nat) ∣ (i + 1) := by omega
            exact hnot2 (h2d.trans hdd)
      have hprime_i : 0 < e → Nat.Prime i := by
        intro hpos1
        have hidvd : i ∣ n := by
          have hpow : i ∣ i ^ e := dvd_pow_self i (by omega)
          exact hpow.trans ⟨m, he.symm⟩
        exact no_divisor_below_prime hi2 hidvd hinv
      obtain ⟨ha, hb, hc1, hd1⟩ :=
        ih (i + 2) m (if 0 < e then acc ++ [(i, e)] else acc)
          (by omega) (by omega) (by omega) hp1 hnot2 hinv'
      refine ⟨?_, ?_, hc1, hd1⟩
      · intro pe hpe
        rcases ha pe hpe with hpe' | hpe'
        · by_cases hcase : 0 < e
          · rw [if_pos hcase] at hpe'
            rcases List.mem_append.mp hpe' with hm | hm
            · exact Or.inl hm
            · simp at hm
              subst hm
              exact Or.inr ⟨hprime_i hcase, hcase⟩
          · rw [if_neg hcase] at hpe'
            exact Or.inl hpe'
        · exact Or.inr hpe'
      · rw [hb]
        by_cases hcase : 0 < e
        · rw [if_pos hcase, prodPairs_append]
          calc prodPairs acc * i ^ e * m
              = prodPairs acc * (i ^ e * m) := by ring
            _ = prodPairs acc * n := by rw [he]
        · rw [if_neg hcase]
          have he0 : e = 0 := by omega
          rw [he0, pow_zero, one_mul] at he
          rw [he]
    · rw [factorLoopF_exit _ _ _ _ (by omega)]
      refine ⟨fun pe hpe => Or.inl hpe, rfl, hn, fun h1n =>
        no_small_divisor_prime h1n (by omega) hinv⟩

theorem factorLoopF_stable (f g : Nat) :
    ∀ (i n : Nat) (acc : List (Nat × Nat)),
      n + 2 ≤ f + i → n + 2 ≤ g + i →
      factorLoopF f i n acc = factorLoopF g i n acc := by
  induction f generalizing g with
  | zero =>
    intro i n acc hf hg
    have hsq : n < i * i :=
      lt_of_lt_of_le (by omega) (Nat.le_mul_of_pos_left i (by omega))
    rw [factorLoopF_exit _ _ _ _ hsq, factorLoopF_exit _ _ _ _ hsq]
  | succ f ih =>
    intro i n acc hf hg
    cases g with
    | zero =>
      have hsq : n < i * i :=
        lt_of_lt_of_le (by omega) (Nat.le_mul_of_pos_left i (by omega))
      rw [factorLoopF_exit _ _ _ _ hsq, factorLoopF_exit _ _ _ _ hsq]
    | succ g =>
      by_cases hloop : i * i ≤ n
      · have hle : (divideOut i n).2 ≤ n := divideOutF_snd_le n i n
        have hstep1 : factorLoopF (f + 1) i n acc =
            factorLoopF f (i + 2) (divideOut i n).2
              (if 0 < (divideOut i n).1 then acc ++ [(i, (divideOut i n).1)]
               else acc) := by
          simp only [factorLoopF]
          rw [if_pos hloop]
        have hstep2 : factorLoopF (g + 1) i n acc =
            factorLoopF g (i + 2) (divideOut i n).2
              (if 0 < (divideOut i n).1 then acc ++ [(i, (divideOut i n).1)]
               else acc) := by
          simp only [factorLoopF]
          rw [if_pos hloop]
        rw [hstep1, hstep2]
        exact ih g _ _ _ (by omega) (by omega)
      · rw [factorLoopF_exit _ _ _ _ (by omega),
          factorLoopF_exit _ _ _ _ (by omega)]

theorem prime_factors_pairs_spec (n : Nat) (hn : 1 ≤ n) :
    (∀ pe ∈ prime_factors_pairs n, Nat.Prime pe.1 ∧ 1 ≤ pe.2) ∧
      prodPairs (prime_factors_pairs n) = n := by
  unfold prime_factors_pairs factorLoop
  have hd := divideOutF_spec n 2 n le_rfl (by omega) hn
  rcases hdo : divideOut 2 n with ⟨e2, n1⟩
  have hdo' : divideOutF n 2 n = (e2, n1) := hdo
  rw [hdo'] at hd
  simp only [] at hd
  obtain ⟨he2, hnd2, hp2⟩ := hd
  show (∀ pe ∈ (if 1 < (factorLoopF (n1 + 2) 3 n1
          (if 0 < e2 then [(2, e2)] else [])).2 then
        (factorLoopF (n1 + 2) 3 n1 (if 0 < e2 then [(2, e2)] else [])).1 ++
          [((factorLoopF (n1 + 2) 3 n1 (if 0 < e2 then [(2, e2)] else [])).2, 1)]
      else (factorLoopF (n1 + 2) 3 n1 (if 0 < e2 then [(2, e2)] else [])).1),
      Nat.Prime pe.1 ∧ 1 ≤ pe.2) ∧
    prodPairs (if 1 < (factorLoopF (n1 + 2) 3 n1
          (if 0 < e2 then [(2, e2)] else [])).2 then
        (factorLoopF (n1 + 2) 3 n1 (if 0 < e2 then [(2, e2)] else [])).1 ++
          [((factorLoopF (n1 + 2) 3 n1 (if 0 < e2 then [(2, e2)] else [])).2, 1)]
      else (factorLoopF (n1 + 2) 3 n1 (if 0 < e2 then [(2, e2)] else [])).1) = n
  have hinv3 : ∀ d, 2 ≤ d → d < 3 → ¬ d ∣ n1 := by
    intro d hd2 hd3
    have hde : d = 2 := by omega
    subst hde
    exact hnd2
  have hl := factorLoopF_spec (n1 + 2) 3 n1 (if 0 < e2 then [(2, e2)] else [])
    (by omega) (by omega) (by omega) hp2 hnd2 hinv3
  have hacc0 : prodPairs (if 0 < e2 then [(2, e2)] else []) = 2 ^ e2 := by
    by_cases he2p : 0 < e2
    · rw [if_pos he2p]
      simp [prodPairs]
    · rw [if_neg he2p]
      have he0 : e2 = 0 := by omega
      subst he0
      simp [prodPairs]
  have hacc0mem : ∀ pe ∈ (if 0 < e2 then [(2, e2)] else ([] : List (Nat × Nat))),
      Nat.Prime pe.1 ∧ 1 ≤ pe.2 := by
    by_cases he2p : 0 < e2
    · rw [if_pos he2p]
      intro pe hpe
      simp at hpe
      subst hpe
      exact ⟨Nat.prime_two, he2p⟩
    · rw [if_neg he2p]
      intro pe hpe
      simp at hpe
  rcases hfl : factorLoopF (n1 + 2) 3 n1 (if 0 < e2 then [(2, e2)] else [])
    with ⟨fl, m⟩
  rw [hfl] at hl
  simp only [] at hl
  obtain ⟨ha, hb, hc1, hd1⟩ := hl
  have hprod : prodPairs fl * m = 2 ^ e2 * n1 := by rw [hb, hacc0]
  by_cases hm : 1 < m
  · rw [if_pos hm]
    constructor
    · intro pe hpe
      rcases List.mem_append.mp hpe with hm' | hm'
      · rcases ha pe hm' with hacc | hpr
        · exact hacc0mem pe hacc
        · exact hpr
      · simp at hm'
        subst hm'
        exact ⟨hd1 hm, le_refl 1⟩
    · rw [prodPairs_append]
      simp only [pow_one]
      rw [hprod, he2]
  · rw [if_neg hm]
    have hm1 : m = 1 := by omega
    constructor
    · intro pe hpe
      rcases ha pe hpe with hacc | hpr
      · exact hacc0mem pe hacc
      · exact hpr
    · rw [hm1, mul_one] at hprod
      rw [hprod, he2]

/-- Exact floor division: when `b` divides `a`, multiplying the floor
quotient back by `b` recovers `a`. -/
theorem fdiv_mul_cancel_of_dvd {a b : Int} (hb : b ≠ 0) (h : b ∣ a) :
    Int.fdiv a b * b = a := by
  obtain ⟨k, hk⟩ := h
  rw [hk, Int.mul_fdiv_cancel_left _ hb]
  ring

/-- `compute_lcd` of a nonempty list of positive integers is positive and a
multiple of every element. -/
theorem compute_lcd_spec (l : List Int) (hne : l ≠ [])
    (hpos : ∀ x ∈ l, 0 < x) :
    0 < compute_lcd l ∧ ∀ d ∈ l, d ∣ compute_lcd l := by
  rw [compute_lcd_pos_eq hne hpos]
  constructor
  · have hfold : 0 < (l.map Int.toNat).foldl Nat.lcm 1 := by
      refine foldl_nat_lcm_pos _ 1 one_pos ?_
      intro x hx
      obtain ⟨y, hy, rfl⟩ := List.mem_map.mp hx
      have := hpos y hy
      omega
    exact_mod_cast hfold
  · intro d hd
    have hdn : d.toNat ∣ (l.map Int.toNat).foldl Nat.lcm 1 :=
      (dvd_foldl_nat_lcm (l.map Int.toNat) 1).2 d.toNat
        (List.mem_map_of_mem Int.toNat hd)
    have hdnn : 0 ≤ d := le_of_lt (hpos d hd)
    have hdc : d = ((d.toNat : Nat) : Int) := (Int.toNat_of_nonneg hdnn).symm
    rw [hdc]
    exact_mod_cast hdn

/-- For any successfully parsed expression, the trace's LCD is positive and a
multiple of every (positive) denominator. -/
theorem trace_lcd_facts {s : String} {parts : List Part}
    (hp : parse_expression s = .ok parts) :
    0 < (mkTrace parts).lcd ∧
    (mkTrace parts).denominators ≠ [] ∧
    ∀ d ∈ (mkTrace parts).denominators, 0 < d ∧ d ∣ (mkTrace parts).lcd := by
  have hinv := parse_ok_inv hp
  have h3 := (parse_ok_spec hp).2.1
  have hpos : ∀ d ∈ (mkTrace parts).denominators, 0 < d := by
    intro d hd
    rw [mkTrace_denominators] at hd
    obtain ⟨fr, hfr, rfl⟩ := List.mem_map.mp hd
    exact (fractionsOf_inv hinv fr hfr).2
  have hne : (mkTrace parts).denominators ≠ [] := by
    rw [mkTrace_denominators]
    intro hnil
    have hlen := congrArg List.length hnil
    rw [List.length_map, List.length_nil] at hlen
    omega
  have hlcd := compute_lcd_spec _ hne hpos
  rw [mkTrace_lcd]
  exact ⟨hlcd.1, hne, fun d hd => ⟨hpos d hd, hlcd.2 d hd⟩⟩

/-! ## Claim theorems -/

/-- Claim C1, counterexample: the claim states the converted numerators for
`"1/6-2/3+4/9"` are `(3, -12, 8)`, but the code computes `converted_nums =
[3, 12, 8]` (the `-` operator is applied later, during accumulation), so the
claimed value is wrong. -/
theorem claim_C1_counterexample :
    (solve "1/6-2/3+4/9").map (fun t => t.convertedNums) ≠
      .ok [3, -12, 8] := by decide

/-- Claim C1 (amended): for the input `"1/6-2/3+4/9"`, parsing yields the
terms `[(1,6),(2,3),(4,9)]` and the operators `['-','+']`, and the pipeline
produces LCD = 18, converted numerators `(3, 12, 8)` (the `-` operator is
applied during accumulation, not folded into the converted numerator),
accumulated sum `-1`, and the final fraction `-1/18` reported as already
simplified (the common divisor `gcd(1,18) = 1` is not `> 1`, so
`simplified = none` models the "Cannot be simplified further" report). -/
theorem claim_C1_amended :
    solve "1/6-2/3+4/9" =
      .ok ⟨[.term 1 6, .op '-', .term 2 3, .op '+', .term 4 9],
        [(1, 6), (2, 3), (4, 9)], ['-', '+'], [6, 3, 9], 18,
        [3, 12, 8], -1, 1, none⟩ := by decide

/-- Claim C5: whenever the scan completes with a count of parsed terms other
than 3 or a count of operators other than 2, `parse_expression` fails with the
arity error, whatever the individual tokens were; in particular the two-term
input `"1/6-2/3"` fails with it. -/
theorem claim_C5_wrong_arity :
    (∀ (s : String) (parts : List Part), scanOf s = .ok parts →
      ((fractionsOf parts).length ≠ 3 ∨ (operatorsOf parts).length ≠ 2) →
      parse_expression s = .error .wrongArity) ∧
    parse_expression "1/6-2/3" = .error .wrongArity := by
  refine ⟨?_, by decide⟩
  intro s parts hs hcount
  unfold parse_expression
  rw [hs]
  show (if (fractionsOf parts).length = 3 ∧ (operatorsOf parts).length = 2
      then (Except.ok parts : Except ParseError (List Part))
      else .error .wrongArity) = .error .wrongArity
  rw [if_neg]
  tauto

theorem claim_C5_witness :
    parse_expression "1/6-2/3" = Except.error ParseError.wrongArity :=
  claim_C5_wrong_arity.1 "1/6-2/3"
    [.term 1 6, .op '-', .term 2 3] (by decide) (by decide)

/-- Claim C6: the first invalid token aborts the scan with an error naming
that token: a `/`-token whose denominator parses to 0 gives the
zero-denominator error; a `/`-token either of whose parts does not parse as
an integer gives the invalid-fraction error; a slash-free token that does not
parse as an integer gives the invalid-number error; the scanning loop
propagates the error of the token at the scan position, and
`parse_expression` returns exactly the scan's error (no parsed sequence);
concretely `"1/0+1/2-1/3"` and `"1/2+1/0-1/3"` fail naming `"1/0"`,
`"1/a+1/2-1/3"` fails naming `"1/a"`, and `"1b+1/2-1/3"` fails naming
`"1b"`. -/
theorem claim_C6_token_errors :
    (∀ (tok a b : List Char) (na : Nat), tok.contains '/' = true →
      splitOnChar '/' tok = [a, b] → decToNat? a = some na →
      decToNat? b = some 0 →
      parseToken tok = .error (.zeroDenominator (String.mk tok))) ∧
    (∀ (tok a b : List Char), tok.contains '/' = true →
      splitOnChar '/' tok = [a, b] →
      (decToNat? a = none ∨ decToNat? b = none) →
      parseToken tok = .error (.invalidFraction (String.mk tok))) ∧
    (∀ tok : List Char, tok.contains '/' = false → decToNat? tok = none →
      parseToken tok = .error (.invalidNumber (String.mk tok))) ∧
    (∀ (f : Nat) (parts : List Part) (c : Char) (rest : List Char)
      (e : ParseError), ¬ (c = '+' ∨ c = '-') →
      parseToken ((c :: rest).takeWhile notOp) = .error e →
      scanFuel (f + 1) parts (c :: rest) = .error e) ∧
    (∀ (s : String) (e : ParseError), scanOf s = .error e →
      parse_expression s = .error e) ∧
    parse_expression "1/0+1/2-1/3" = .error (.zeroDenominator "1/0") ∧
    parse_expression "1/2+1/0-1/3" = .error (.zeroDenominator "1/0") ∧
    parse_expression "1/a+1/2-1/3" = .error (.invalidFraction "1/a") ∧
    parse_expression "1b+1/2-1/3" = .error (.invalidNumber "1b") := by
  refine ⟨?_, ?_, ?_, ?_, ?_, by decide, by decide, by decide, by decide⟩
  · intro tok a b na hc hsplit hna hb0
    unfold parseToken
    rw [if_pos hc, hsplit]
    simp [hna, hb0]
  · intro tok a b hc hsplit hone
    unfold parseToken
    rw [if_pos hc, hsplit]
    rcases ha : decToNat? a with _ | na
    · simp [ha]
    · rcases hone with h | h
      · rw [ha] at h
        exact absurd h (by simp)
      · simp [ha, h]
  · intro tok hc hnone
    unfold parseToken
    rw [if_neg (by rw [hc]; simp)]
    simp [hnone]
  · intro f parts c rest e hop htok
    simp only [scanFuel]
    rw [if_neg hop, htok]
  · intro s e h
    unfold parse_expression
    rw [h]

theorem claim_C6_witness :
    parseToken ("1/0".toList) = .error (.zeroDenominator "1/0") ∧
    parseToken ("1/a".toList) = .error (.invalidFraction "1/a") ∧
    parseToken ("1b".toList) = .error (.invalidNumber "1b") ∧
    parse_expression "1/0+1/2-1/3" = .error (.zeroDenominator "1/0") := by
  refine ⟨?_, ?_, ?_, ?_⟩
  · exact claim_C6_token_errors.1 ("1/0".toList) ("1".toList) ("0".toList) 1
      (by decide) (by decide) (by decide) (by decide)
  · exact claim_C6_token_errors.2.1 ("1/a".toList) ("1".toList) ("a".toList)
      (by decide) (by decide) (Or.inr (by decide))
  · exact claim_C6_token_errors.2.2.1 ("1b".toList) (by decide) (by decide)
  · exact claim_C6_token_errors.2.2.2.2.1 "1/0+1/2-1/3"
      (.zeroDenominator "1/0") (by decide)

/-- Claim C9: a `+`/`-` character not immediately preceded by a completed
term is silently discarded: prefixing any input with `-` or `+` leaves the
parse result unchanged (in particular a leading `-` does not negate the first
term), a second operator character directly following a recorded operator is
skipped (only the first of the run is recorded), and the input
`"1/2+-1/3+1/4"` parses with operators `['+', '+']`. -/
theorem claim_C9_sign_skipping :
    (∀ (s : String) (parts : List Part), parse_expression s = .ok parts →
      parse_expression ("-" ++ s) = .ok parts ∧
      parse_expression ("+" ++ s) = .ok parts) ∧
    (∀ (f : Nat) (parts : List Part) (c1 c2 : Char) (rest : List Char),
      (c1 = '+' ∨ c1 = '-') → (c2 = '+' ∨ c2 = '-') →
      lastIsTerm parts = true →
      scanFuel (f + 2) parts (c1 :: c2 :: rest) =
        scanFuel f (parts ++ [Part.op c1]) rest) ∧
    parse_expression "1/2+-1/3+1/4" =
      .ok [.term 1 2, .op '+', .term 1 3, .op '+', .term 1 4] := by
  refine ⟨?_, scanFuel_op_run, by decide⟩
  intro s parts h
  constructor
  · have hpre := parse_prefixed_sign '-' (Or.inr rfl) s
    rw [← h]
    exact hpre
  · have hpre := parse_prefixed_sign '+' (Or.inl rfl) s
    rw [← h]
    exact hpre

theorem claim_C9_witness :
    parse_expression ("-" ++ "1/6-2/3+4/9") =
      Except.ok [Part.term 1 6, Part.op '-', Part.term 2 3, Part.op '+',
        Part.term 4 9] :=
  (claim_C9_sign_skipping.1 "1/6-2/3+4/9"
    [Part.term 1 6, Part.op '-', Part.term 2 3, Part.op '+', Part.term 4 9]
    (by decide)).1

/-- Claim C10, failing input: the inline factorization loop of `main`
(lines 155-176) steps its trial divisor by 2 starting from 2 (`i = 2`;
`i += 2`), so it never divides by odd primes: for denominator 9 it produces
the entry `(9, 1)` — and 9 is not prime — while `prime_factors` produces
`(3, 2)`; consequently for the default example's denominators `[6, 3, 9]`
the displayed "highest power of each prime" product is 2·3·9 = 54, which is
not the LCD 18 computed by `compute_lcd` (the display even asserts
`2 × 3 × 9 = 18`).  The code contradicts both its sibling `prime_factors`
and its own displayed equation, so the claim is right and the code wrong. -/
theorem claim_C10_inline_bug :
    inline_factors 9 = [(9, 1)] ∧ prime_factors_pairs 9 = [(3, 2)] ∧
    ¬ Nat.Prime 9 ∧ all_factors [6, 3, 9] = [(2, 1), (3, 1), (9, 1)] ∧
    lcd_factors_prod [6, 3, 9] = 54 ∧
    (solve "1/6-2/3+4/9").map (fun t => t.lcd) = .ok 18 ∧
    (54 : Nat) ≠ 18 := by
  exact ⟨by decide, by decide, by decide, by decide, by decide, by decide,
    by decide⟩

/-- Claim C2: for every successfully parsed expression, the simplification
divisor is `gcd(|result|, |LCD|)` of the (possibly negative) accumulated
result and the (positive) LCD; it is positive; when it exceeds 1 the reported
simplified fraction is `(result / divisor, LCD / divisor)` with both floor
divisions exact; otherwise the code reports the fraction as not further
simplifiable (`simplified = none`), which is correct since then
`gcd(|result|, |LCD|) = 1`. -/
theorem claim_C2_simplification :
    ∀ (s : String) (t : Trace), solve s = .ok t →
      t.commonDivisor = ((Nat.gcd t.result.natAbs t.lcd.natAbs : Nat) : Int) ∧
      0 < t.commonDivisor ∧
      (1 < t.commonDivisor →
        t.simplified = some (Int.fdiv t.result t.commonDivisor,
          Int.fdiv t.lcd t.commonDivisor) ∧
        Int.fdiv t.result t.commonDivisor * t.commonDivisor = t.result ∧
        Int.fdiv t.lcd t.commonDivisor * t.commonDivisor = t.lcd) ∧
      (¬ 1 < t.commonDivisor →
        t.simplified = none ∧ Nat.gcd t.result.natAbs t.lcd.natAbs = 1) := by
  intro s t hs
  obtain ⟨parts, hp, rfl⟩ := solve_ok hs
  have hlcd := (trace_lcd_facts hp).1
  have hlne : (mkTrace parts).lcd ≠ 0 := ne_of_gt hlcd
  have hgcd : (mkTrace parts).commonDivisor =
      ((Int.gcd (mkTrace parts).result (mkTrace parts).lcd : Nat) : Int) :=
    mkTrace_commonDivisor parts
  have hgpos : 0 < Int.gcd (mkTrace parts).result (mkTrace parts).lcd :=
    Int.gcd_pos_of_ne_zero_right _ hlne
  refine ⟨rfl, ?_, ?_, ?_⟩
  · rw [hgcd]
    exact_mod_cast hgpos
  · intro h1
    refine ⟨?_, ?_, ?_⟩
    · rw [mkTrace_simplified, if_pos h1]
    · rw [hgcd]
      exact fdiv_mul_cancel_of_dvd
        (by exact_mod_cast Nat.pos_iff_ne_zero.mp hgpos) Int.gcd_dvd_left
    · rw [hgcd]
      exact fdiv_mul_cancel_of_dvd
        (by exact_mod_cast Nat.pos_iff_ne_zero.mp hgpos) Int.gcd_dvd_right
  · intro h1
    have hcd1 : (mkTrace parts).commonDivisor = 1 := by
      rw [hgcd] at h1 ⊢
      omega
    refine ⟨?_, ?_⟩
    · rw [mkTrace_simplified, if_neg h1]
    · have : ((Int.gcd (mkTrace parts).result (mkTrace parts).lcd : Nat)
          : Int) = 1 := by rw [← hgcd]; exact hcd1
      exact_mod_cast this

theorem claim_C2_witness :
    0 < (mkTrace [Part.term 1 6, Part.op '-', Part.term 2 3, Part.op '+',
      Part.term 4 9]).commonDivisor :=
  (claim_C2_simplification "1/6-2/3+4/9"
    (mkTrace [Part.term 1 6, Part.op '-', Part.term 2 3, Part.op '+',
      Part.term 4 9]) (by decide)).2.1

/-- Claim C3: on every nonempty list of positive denominators `compute_lcd`
returns a positive value that is an exact multiple of every element; hence
for every successfully parsed expression each per-term multiplier
`LCD // denominator` is an exact integer division (multiplying back by the
denominator recovers the LCD), and each converted numerator is the term's
numerator times its multiplier. -/
theorem claim_C3_lcd_multiple :
    (∀ l : List Int, l ≠ [] → (∀ x ∈ l, 0 < x) →
      0 < compute_lcd l ∧ ∀ d ∈ l, d ∣ compute_lcd l) ∧
    (∀ (s : String) (t : Trace), solve s = .ok t →
      t.denominators ≠ [] ∧
      (∀ d ∈ t.denominators, 0 < d ∧ d ∣ t.lcd) ∧
      (∀ d ∈ t.denominators, Int.fdiv t.lcd d * d = t.lcd) ∧
      t.convertedNums =
        t.fractions.map (fun fr => fr.1 * Int.fdiv t.lcd fr.2)) := by
  refine ⟨compute_lcd_spec, ?_⟩
  intro s t hs
  obtain ⟨parts, hp, rfl⟩ := solve_ok hs
  obtain ⟨hlcd, hne, hfacts⟩ := trace_lcd_facts hp
  refine ⟨hne, hfacts, ?_, mkTrace_convertedNums parts⟩
  intro d hd
  obtain ⟨hdpos, hddvd⟩ := hfacts d hd
  obtain ⟨k, hk⟩ := hddvd
  rw [hk, Int.mul_fdiv_cancel_left _ (ne_of_gt hdpos)]
  ring

theorem claim_C3_witness :
    0 < compute_lcd [6, 3, 9] ∧ ∀ d ∈ [(6 : Int), 3, 9], d ∣ compute_lcd [6, 3, 9] :=
  claim_C3_lcd_multiple.1 [6, 3, 9] (by decide) (by decide)

/-- Claim C4: for every successfully parsed expression with converted
numerators `c0, c1, c2` and operators `o1, o2`, the accumulated result is the
strictly left-to-right evaluation `(c0 o1 c1) o2 c2`, where an operator adds
on `'+'` and subtracts otherwise — no other evaluation order or precedence is
applied. -/
theorem claim_C4_left_to_right :
    ∀ (s : String) (t : Trace) (c0 c1 c2 : Int) (o1 o2 : Char),
      solve s = .ok t → t.convertedNums = [c0, c1, c2] →
      t.operators = [o1, o2] →
      t.result = applyOp o2 (applyOp o1 c0 c1) c2 := by
  intro s t c0 c1 c2 o1 o2 hs hconv hop
  obtain ⟨parts, hp, rfl⟩ := solve_ok hs
  rw [mkTrace_result, hconv, hop]
  rfl

theorem claim_C4_witness :
    (mkTrace [Part.term 1 6, Part.op '-', Part.term 2 3, Part.op '+',
      Part.term 4 9]).result = applyOp '+' (applyOp '-' 3 12) 8 :=
  claim_C4_left_to_right "1/6-2/3+4/9"
    (mkTrace [Part.term 1 6, Part.op '-', Part.term 2 3, Part.op '+',
      Part.term 4 9]) 3 12 8 '-' '+' (by decide) (by decide) (by decide)

/-- Claim C7: for every `n ≥ 1` the `prime_factors` computation terminates
(the fueled loops are stable once the fuel reaches the baked-in bound) and
its factor table is a prime factorization of `n`: every recorded base is
prime with a positive exponent, the product of `baseᵉˣᵖ` over the entries is
`n`, the factorization of 1 is empty, and the returned strings are exactly
the rendered entries of that table. -/
theorem claim_C7_prime_factors :
    ∀ n : Nat, 1 ≤ n →
      (∀ pe ∈ prime_factors_pairs n, Nat.Prime pe.1 ∧ 1 ≤ pe.2) ∧
      prodPairs (prime_factors_pairs n) = n ∧
      (n = 1 → prime_factors_pairs n = []) ∧
      prime_factors n = (prime_factors_pairs n).map renderFactor ∧
      (∀ f, n ≤ f → divideOutF f 2 n = divideOut 2 n) ∧
      (∀ (f : Nat) (acc : List (Nat × Nat)), n ≤ f →
        factorLoopF f 3 (divideOut 2 n).2 acc =
          factorLoop 3 (divideOut 2 n).2 acc) := by
  intro n hn
  obtain ⟨h1, h2⟩ := prime_factors_pairs_spec n hn
  refine ⟨h1, h2, ?_, rfl, ?_, ?_⟩
  · rintro rfl
    decide
  · intro f hf
    exact divideOutF_stable f n 2 n hf le_rfl
  · intro f acc hf
    have hle : (divideOut 2 n).2 ≤ n := divideOutF_snd_le n 2 n
    exact factorLoopF_stable f ((divideOut 2 n).2 + 2) 3 (divideOut 2 n).2 acc
      (by omega) (by omega)

theorem claim_C7_witness :
    prodPairs (prime_factors_pairs 12) = 12 :=
  (claim_C7_prime_factors 12 (by decide)).2.1

/-- Claim C8: `compute_lcd` on a one-element list of a positive denominator
returns that element, and on nonempty lists of positive denominators it is
order-independent: any permutation of the list yields the same LCD. -/
theorem claim_C8_lcd_algebra :
    (∀ d : Int, 0 < d → compute_lcd [d] = d) ∧
    (∀ l1 l2 : List Int, l1 ≠ [] → (∀ x ∈ l1, 0 < x) → l1.Perm l2 →
      compute_lcd l1 = compute_lcd l2) := by
  constructor
  · intro d _
    rfl
  · intro l1 l2 hne hpos hperm
    have hne2 : l2 ≠ [] := by
      intro h
      subst h
      exact hne hperm.eq_nil
    have hpos2 : ∀ x ∈ l2, 0 < x := fun x hx =>
      hpos x (hperm.mem_iff.mpr hx)
    rw [compute_lcd_pos_eq hne hpos, compute_lcd_pos_eq hne2 hpos2]
    have hmap : (l1.map Int.toNat).Perm (l2.map Int.toNat) :=
      hperm.map Int.toNat
    rw [foldl_nat_lcm_perm hmap 1]

theorem claim_C8_witness :
    compute_lcd [3] = 3 ∧ compute_lcd [6, 3, 9] = compute_lcd [9, 3, 6] :=
  ⟨claim_C8_lcd_algebra.1 3 (by decide),
    claim_C8_lcd_algebra.2 [6, 3, 9] [9, 3, 6] (by decide) (by decide)
      (by decide)⟩

end FV
